import Mathlib

/-
Verification of the go-fsutil library (path listing with glob-based
ignore filtering, move/copy, zip/unzip).

The development shallowly embeds the relevant functions of the
repository.  Strings are modelled as `List Char` (the inputs of
interest are ASCII, so Go byte/rune indexing coincides with `Char`
lists).  The Go standard-library helpers the code calls
(`filepath.Match`, `filepath.Clean`, `filepath.Join`, `filepath.Dir`,
`filepath.Ext`, `filepath.Base`, `strings.Replace`,
`strings.HasPrefix`, `filepath.Walk`) are ported faithfully from their
Go sources for the unix path separator.  Filesystem effects are
modelled as explicit event lists; filesystem trees as an inductive
type walked in the depth-first pre-order used by `filepath.Walk`
(directory entries in list order, errors aborting the walk exactly as
`filepath.Walk` does for a non-SkipDir error).  Functions that consume
input in non-structural steps take a fuel argument that is initialised
beyond the input length, so every definition is executable by kernel
reduction.
-/

abbrev Str := List Char

deriving instance DecidableEq for Except

def s2l (s : String) : Str := s.data

/-- The unix path separator used by the library on the modelled platform. -/
def sep : Char := '/'

/-
Port of Go path/filepath Match (unix build), from go/src/path/filepath/match.go.
scanChunk gets the next segment of pattern: leading stars, then the
literal chunk up to the next unbracketed star.
-/

def scanStars : Str → Bool × Str
  | '*' :: rest => (true, (scanStars rest).2)
  | p => (false, p)

def scanChunkBody (inrange : Bool) : Str → Str × Str
  | [] => ([], [])
  | '\\' :: rest =>
    match rest with
    | [] => (['\\'], [])
    | d :: rest2 =>
      let (ch, rs) := scanChunkBody inrange rest2
      ('\\' :: d :: ch, rs)
  | '[' :: rest =>
    let (ch, rs) := scanChunkBody true rest
    ('[' :: ch, rs)
  | ']' :: rest =>
    let (ch, rs) := scanChunkBody false rest
    (']' :: ch, rs)
  | '*' :: rest =>
    if inrange then
      let (ch, rs) := scanChunkBody inrange rest
      ('*' :: ch, rs)
    else ([], '*' :: rest)
  | c :: rest =>
    let (ch, rs) := scanChunkBody inrange rest
    (c :: ch, rs)

def scanChunk (pattern : Str) : Bool × Str × Str :=
  let (star, p) := scanStars pattern
  let (chunk, rest) := scanChunkBody false p
  (star, chunk, rest)

/-- getEsc of Go filepath.Match: one possibly-escaped character of a
character class; `error` is Go ErrBadPattern. -/
def getEsc : Str → Except Unit (Char × Str)
  | [] => .error ()
  | c :: rest =>
    if c = '-' ∨ c = ']' then .error ()
    else if c = '\\' then
      match rest with
      | [] => .error ()
      | d :: rest2 => if rest2 = [] then .error () else .ok (d, rest2)
    else if rest = [] then .error () else .ok (c, rest)

/-- The range-parsing loop of the character-class case of matchChunk.
`r` is the rune read from the name, `acc` the match accumulator,
`nrange` the number of ranges parsed so far. -/
def matchRanges : Nat → Char → Bool → Nat → Str → Except Unit (Bool × Str)
  | 0, _, _, _, _ => .error ()
  | fuel + 1, r, acc, nrange, chunk =>
    match chunk with
    | ']' :: rest =>
      if nrange > 0 then .ok (acc, rest)
      else .error ()
    | _ =>
      match getEsc chunk with
      | .error _ => .error ()
      | .ok (lo, rest) =>
        match rest with
        | '-' :: rest2 =>
          match getEsc rest2 with
          | .error _ => .error ()
          | .ok (hi, rest3) =>
            matchRanges fuel r (acc || decide (lo ≤ r ∧ r ≤ hi)) (nrange + 1) rest3
        | _ =>
          matchRanges fuel r (acc || decide (lo ≤ r ∧ r ≤ lo)) (nrange + 1) rest

/-- matchChunk of Go filepath.Match: match a chunk (no stars) against
the start of s, continuing to scan the chunk for syntax errors after
the match has failed, exactly as the Go code does via its `failed`
flag.  Returns the unconsumed rest of s and the success flag. -/
def matchChunkAux : Nat → Bool → Str → Str → Except Unit (Str × Bool)
  | 0, _, _, _ => .error ()
  | _, failed0, [], s => if failed0 then .ok ([], false) else .ok (s, true)
  | fuel + 1, failed0, c :: chunkRest, s =>
    let failed := failed0 || s.isEmpty
    if c = '[' then
      let r : Char := if failed then Char.ofNat 0 else s.headD (Char.ofNat 0)
      let s1 : Str := if failed then s else s.tail
      let negated : Bool := chunkRest.head? = some '^'
      let chunk1 : Str := if chunkRest.head? = some '^' then chunkRest.tail else chunkRest
      match matchRanges (chunk1.length + 1) r false 0 chunk1 with
      | .error _ => .error ()
      | .ok (mtch, chunk2) =>
        matchChunkAux fuel (failed || (mtch == negated)) chunk2 s1
    else if c = '?' then
      if failed then matchChunkAux fuel failed chunkRest s
      else
        match s with
        | [] => matchChunkAux fuel true chunkRest s
        | a :: s1 => matchChunkAux fuel (decide (a = sep)) chunkRest s1
    else if c = '\\' then
      match chunkRest with
      | [] => .error ()
      | d :: chunk2 =>
        if failed then matchChunkAux fuel failed chunk2 s
        else
          match s with
          | [] => matchChunkAux fuel true chunk2 s
          | a :: s1 => matchChunkAux fuel (decide (d ≠ a)) chunk2 s1
    else
      if failed then matchChunkAux fuel failed chunkRest s
      else
        match s with
        | [] => matchChunkAux fuel true chunkRest s
        | a :: s1 => matchChunkAux fuel (decide (c ≠ a)) chunkRest s1

def matchChunk (chunk s : Str) : Except Unit (Str × Bool) :=
  matchChunkAux (chunk.length + 1) false chunk s

/-- Outcome of the star-backtracking loop of Go Match. -/
inductive StarRes where
  | found (t : Str)
  | bad
  | exhausted

/-- The inner loop of Go Match for a starred chunk: try matchChunk at
every later position of the name without crossing a separator.
`patEmpty` records whether the chunk is the last one of the pattern. -/
def starLoop (patEmpty : Bool) (chunk : Str) : Str → StarRes
  | [] => .exhausted
  | c :: rest =>
    if c = sep then .exhausted
    else
      match matchChunk chunk rest with
      | .error _ => .bad
      | .ok (t, true) =>
        if patEmpty && !t.isEmpty then starLoop patEmpty chunk rest else .found t
      | .ok (_, false) => starLoop patEmpty chunk rest

/-- The final loop of Go Match: before returning a no-error mismatch,
check that the remainder of the pattern is syntactically valid. -/
def validRest : Nat → Str → Bool
  | 0, _ => false
  | _, [] => true
  | fuel + 1, pattern =>
    let (_, chunk, rest) := scanChunk pattern
    match matchChunk chunk [] with
    | .error _ => false
    | .ok _ => validRest fuel rest

/-- Go filepath.Match main loop. -/
def goMatchAux : Nat → Str → Str → Except Unit Bool
  | _, [], name => .ok name.isEmpty
  | 0, _, _ => .error ()
  | fuel + 1, pattern, name =>
    let (star, chunk, rest) := scanChunk pattern
    if star && chunk.isEmpty then .ok (!name.contains sep)
    else
      match matchChunk chunk name with
      | .error _ => .error ()
      | .ok (t, ok) =>
        if ok && (t.isEmpty || !rest.isEmpty) then goMatchAux fuel rest t
        else if star then
          match starLoop rest.isEmpty chunk name with
          | .found t2 => goMatchAux fuel rest t2
          | .bad => .error ()
          | .exhausted => if validRest (rest.length + 1) rest then .ok false else .error ()
        else if validRest (rest.length + 1) rest then .ok false else .error ()

/-- Go filepath.Match (unix): `.error ()` is ErrBadPattern. -/
def goMatch (pattern name : Str) : Except Unit Bool :=
  goMatchAux (pattern.length + 1) pattern name

/-
Port of Go path/filepath Clean (unix), from go/src/path/filepath/path.go.
The lazybuf output is modelled as a reversed character list; `dotdot`
is the index below which ".." backtracking may not erase.
-/

/-- The backtracking step of Clean for a ".." element: out.w is
decremented once and then while it exceeds dotdot and the character at
the new index is not a separator.  `out` is the reversed output
buffer. -/
def cleanBacktrackGo (dotdot : Nat) (dropped : Char) : Str → Str
  | [] => []
  | d :: rest2 =>
    if rest2.length + 1 > dotdot ∧ dropped ≠ sep then cleanBacktrackGo dotdot d rest2
    else d :: rest2

def cleanBacktrack (dotdot : Nat) : Str → Str
  | [] => []
  | c :: rest => cleanBacktrackGo dotdot c rest

/-- The main loop of Clean.  `out` is the reversed output buffer,
`rest` the unprocessed input. -/
def cleanLoop : Nat → Bool → Nat → Str → Str → Str
  | 0, _, _, out, _ => out
  | fuel + 1, rooted, dotdot, out, rest =>
    match rest with
    | [] => out
    | c :: rest1 =>
      if c = sep then cleanLoop fuel rooted dotdot out rest1
      else if c = '.' ∧ (rest1 = [] ∨ rest1.head? = some sep) then
        cleanLoop fuel rooted dotdot out rest1
      else if c = '.' ∧ rest1.head? = some '.' ∧
          (rest1.tail = [] ∨ rest1.tail.head? = some sep) then
        let rest2 := rest1.tail
        if out.length > dotdot then
          cleanLoop fuel rooted dotdot (cleanBacktrack dotdot out) rest2
        else if !rooted then
          let out1 := if out.length > 0 then sep :: out else out
          let out2 := '.' :: '.' :: out1
          cleanLoop fuel rooted out2.length out2 rest2
        else
          cleanLoop fuel rooted dotdot out rest2
      else
        let out1 :=
          if (rooted ∧ out.length ≠ 1) ∨ (¬rooted ∧ out.length ≠ 0) then sep :: out
          else out
        let run := rest.takeWhile (fun d => d ≠ sep)
        cleanLoop fuel rooted dotdot (run.reverse ++ out1) (rest.dropWhile (fun d => d ≠ sep))

/-- Go filepath.Clean (unix, so FromSlash is the identity). -/
def goClean (path : Str) : Str :=
  match path with
  | [] => ['.']
  | c :: _ =>
    let rooted := c = sep
    let out0 : Str := if rooted then [sep] else []
    let dd0 : Nat := if rooted then 1 else 0
    let res := (cleanLoop (path.length + 1) rooted dd0 out0 path).reverse
    if res = [] then ['.'] else res

/-- Go filepath.Join restricted to two elements: empty elements are
skipped, the rest joined with the separator and Cleaned; all-empty
input gives the empty string. -/
def goJoin2 (a b : Str) : Str :=
  if a ≠ [] then goClean (a ++ sep :: b)
  else if b ≠ [] then goClean b
  else []

/-- Go filepath.IsAbs (unix). -/
def goIsAbs (path : Str) : Bool := path.head? = some sep

/-- Go filepath.Abs (unix): Clean an absolute path, otherwise join it
to the current working directory.  The repositoryʼs Abs discards the
error return. -/
def goAbs (cwd path : Str) : Str :=
  if goIsAbs path then goClean path else goJoin2 cwd path

/-- Go filepath.Dir (unix, empty volume): everything up to and
including the final separator, Cleaned. -/
def goDir (path : Str) : Str :=
  goClean ((path.reverse.dropWhile (fun d => d ≠ sep)).reverse)

/-- Go filepath.Ext: the suffix of the last element starting at the
final dot; empty when the last element has no dot. -/
def goExt (path : Str) : Str :=
  goExtAux path.reverse []
where
  goExtAux : Str → Str → Str
    | [], _ => []
    | c :: rest, acc =>
      if c = sep then []
      else if c = '.' then c :: acc
      else goExtAux rest (c :: acc)

/-- Go filepath.Base (unix, empty volume). -/
def goBase (path : Str) : Str :=
  if path = [] then ['.']
  else
    let p1 := (path.reverse.dropWhile (fun d => d = sep)).reverse
    let p2 := (p1.reverse.takeWhile (fun d => d ≠ sep)).reverse
    if p2 = [] then [sep] else p2

/-- Go strings.Index: the first index at which sub occurs in s. -/
def strIdx (s sub : Str) : Option Nat :=
  (List.range (s.length + 1)).find? (fun i => (s.drop i).take sub.length = sub)

/-- Go strings.Replace with n = 1: replace the first occurrence of old
by new (an empty old matches at the start of the string). -/
def replaceOnce (s old new : Str) : Str :=
  if old = [] then new ++ s
  else
    match strIdx s old with
    | none => s
    | some i => s.take i ++ new ++ s.drop (i + old.length)

/-- Go strings.HasPrefix. -/
def goHasPfx (s pre : Str) : Bool := pre.isPrefixOf s

/-
The repository code (fsutil.go / the zip variant file).
-/

/-- Result of isIgnoredPath: nil, the filepath.Match error, or the
errors.New Ignored marker. -/
inductive IgnoreRes where
  | ok
  | badPattern
  | ignoredErr
deriving DecidableEq

/-- The loop of isIgnoredPath: patterns in supplied order, a Match
error propagated, a match short-circuiting to Ignored. -/
def isIgnoredLoop (path : Str) : List Str → IgnoreRes
  | [] => .ok
  | g :: gs =>
    match goMatch g path with
    | .error _ => .badPattern
    | .ok true => .ignoredErr
    | .ok false => isIgnoredLoop path gs

/-- fsutil isIgnoredPath.  The source wraps the loop in a
non-empty-list test, which the empty loop already handles. -/
def isIgnoredPath (path : Str) (ignore : List Str) : IgnoreRes :=
  isIgnoredLoop path ignore

/-- True when isIgnoredPath returns nil, i.e. the walk callback keeps
the path. -/
def notIgnored (ignore : List Str) (path : Str) : Bool :=
  isIgnoredPath path ignore = .ok

/-- A filesystem tree node.  `file` carries the permission bits of the
source file; directory children are listed in the order the walk
enumerates them; symlinks are leaves (filepath.Walk lstats and never
follows them). -/
inductive FSNode where
  | file (name : Str) (perm : Nat)
  | dir (name : Str) (children : List FSNode)
  | symlink (name : Str)

def FSNode.nameOf : FSNode → Str
  | .file n _ => n
  | .dir n _ => n
  | .symlink n => n

/-- The path filepath.Walk hands the callback for a child: the parent
path joined with the entry name (entry names are single non-empty
components, for which Join is plain concatenation). -/
def childPath (p : Str) (c : FSNode) : Str := p ++ sep :: c.nameOf

mutual
/-- All paths of a tree in the depth-first pre-order of filepath.Walk. -/
def preorderPaths (p : Str) : FSNode → List Str
  | .file _ _ => [p]
  | .symlink _ => [p]
  | .dir _ cs => p :: preorderPathsList p cs
def preorderPathsList (p : Str) : List FSNode → List Str
  | [] => []
  | c :: cs => preorderPaths (childPath p c) c ++ preorderPathsList p cs
end

mutual
/-- The filepath.Walk of the recursive branch of fsutil list with its
callback: a path whose ignore check is not nil makes the callback
return that error, which aborts the entire walk (it is not
filepath.SkipDir).  Returns the appended responses and whether the
walk was aborted. -/
def listWalk (ign : List Str) (p : Str) : FSNode → List Str × Bool
  | .file _ _ => if notIgnored ign p then ([p], false) else ([], true)
  | .symlink _ => if notIgnored ign p then ([p], false) else ([], true)
  | .dir _ cs =>
    if notIgnored ign p then
      let (r, ab) := listWalkList ign p cs
      (p :: r, ab)
    else ([], true)
def listWalkList (ign : List Str) (p : Str) : List FSNode → List Str × Bool
  | [] => ([], false)
  | c :: cs =>
    let (r, ab) := listWalk ign (childPath p c) c
    if ab then (r, true)
    else
      let (r2, ab2) := listWalkList ign p cs
      (r ++ r2, ab2)
end

/-- Error returned by fsutil list: only the shallow branch can return
one (the Glob error). -/
inductive ListErr where
  | matchErr
deriving DecidableEq

/-- The shallow branch of fsutil list: each glob result kept unless
its ignore check is non-nil (a bad pattern silently skips the path in
this branch). -/
def shallowLoop (ign : List Str) : List Str → List Str
  | [] => []
  | p :: ps =>
    if notIgnored ign p then p :: shallowLoop ign ps else shallowLoop ign ps

/-- fsutil list (path results; the FileInfo field of listpath is
dropped).  `tree?` is the directory tree rooted at the Abs of the
requested directory, none when the path does not exist (filepath.Walk
then hands the callback the stat error, the callback returns it and
the walk aborts).  The recursive branch discards the walk error.
`globOk`/`globPaths` model the filepath.Glob call of the shallow
branch. -/
def list (cwd directory : Str) (tree? : Option FSNode) (recursive : Bool)
    (globOk : Bool) (globPaths : List Str) (ign : List Str) :
    List Str × Option ListErr :=
  let d := goAbs cwd directory
  if recursive then
    let (r, _aborted) :=
      match tree? with
      | none => (([] : List Str), true)
      | some t => listWalk ign d t
    (r, none)
  else
    if globOk then (shallowLoop ign globPaths, none)
    else ([], some .matchErr)

/-- fsutil List: the path names of list, an error emptying the
result. -/
def ListNames (cwd directory : Str) (tree? : Option FSNode) (recursive : Bool)
    (globOk : Bool) (globPaths : List Str) (ign : List Str) :
    List Str × Option ListErr :=
  match list cwd directory tree? recursive globOk globPaths ign with
  | (_, some e) => ([], some e)
  | (r, none) => (r, none)

/-- Low-level filesystem writes performed by fsutil Touch. -/
inductive TEv where
  | mkdirAll (path : Str)
  | createFile (path : Str)
deriving DecidableEq

/-- fsutil Touch on a non-existing path: a path with an extension is
treated as a file (parent directories created, then an empty file),
otherwise the path itself is created as a directory; an existing path
is left alone.  `forceFile`/`forceDir` are the optional flags (Move
and Copy pass none, so both are false). -/
def TouchEvents (cwd : Str) (pathExists : Bool) (forceFile forceDir : Bool)
    (path : Str) : List TEv :=
  let abs := goAbs cwd path
  if pathExists then []
  else if !forceDir && (forceFile || !(goExt abs).isEmpty) then
    [.mkdirAll (goDir abs), .createFile abs]
  else [.mkdirAll abs]

/-- One destination-writing action of the Move/Copy walk, carrying the
visited source entry path and the computed target.  A touch action
records the Touch writes it performs. -/
inductive FsAct where
  | touch (entry target : Str) (evs : List TEv)
  | rename (entry target : Str)
  | copyFile (entry target : Str) (perm : Nat)
deriving DecidableEq

def FsAct.entry : FsAct → Str
  | .touch e _ _ => e
  | .rename e _ => e
  | .copyFile e _ _ => e

def FsAct.target : FsAct → Str
  | .touch _ t _ => t
  | .rename _ t => t
  | .copyFile _ t _ => t

/-- Errors of the Move/Copy/Zip walks. -/
inductive WErr where
  | renameErr (p : Str)
  | readErr (p : Str)
  | writeErr (p : Str)
  | createErr (p : Str)
deriving DecidableEq

/-- The target computation shared by Move and Copy:
filepath.Join(dest, strings.Replace(path, source, emptystring, 1)). -/
def moveTarget (source dest p : Str) : Str :=
  goJoin2 dest (replaceOnce p source [])

/-- Environment of a Move call: the oracles answer the stat and rename
calls the operation issues against the destination filesystem. -/
structure MoveEnv where
  cwd : Str
  source : Str
  dest : Str
  destExists : Str → Bool
  renameFails : Str → Str → Bool
  ignore : Bool

mutual
/-- fsutil Move walk: a directory entry is Touched at its mapped
target, a non-symlink file entry renamed to it (a rename failure
returned unless ignoreErrors), a symlink skipped.  A returned error
aborts the whole walk. -/
def moveWalk (env : MoveEnv) (p : Str) : FSNode → List FsAct × Option WErr
  | .dir _ cs =>
    let tgt := moveTarget env.source env.dest p
    let a := FsAct.touch p tgt
      (TouchEvents env.cwd (env.destExists tgt) false false tgt)
    let (acts, e) := moveWalkList env p cs
    (a :: acts, e)
  | .file _ _ =>
    let tgt := moveTarget env.source env.dest p
    if env.renameFails p tgt then
      if env.ignore then ([], none) else ([], some (.renameErr p))
    else ([.rename p tgt], none)
  | .symlink _ => ([], none)
def moveWalkList (env : MoveEnv) (p : Str) :
    List FSNode → List FsAct × Option WErr
  | [] => ([], none)
  | c :: cs =>
    let (r, e) := moveWalk env (childPath p c) c
    match e with
    | some e1 => (r, some e1)
    | none =>
      let (r2, e2) := moveWalkList env p cs
      (r ++ r2, e2)
end

def Move (env : MoveEnv) (t : FSNode) : List FsAct × Option WErr :=
  moveWalk env env.source t

/-- Environment of a Copy call. -/
structure CopyEnv where
  cwd : Str
  source : Str
  dest : Str
  destExists : Str → Bool
  readFails : Str → Bool
  writeFails : Str → Bool
  ignore : Bool

mutual
/-- fsutil Copy walk: directories Touched like Move; a non-symlink
file is read and written to the mapped target with permission 0644;
with ignoreErrors a failed read still reaches the write (with nil
content), modelled as the write of the empty input. -/
def copyWalk (env : CopyEnv) (p : Str) : FSNode → List FsAct × Option WErr
  | .dir _ cs =>
    let tgt := moveTarget env.source env.dest p
    let a := FsAct.touch p tgt
      (TouchEvents env.cwd (env.destExists tgt) false false tgt)
    let (acts, e) := copyWalkList env p cs
    (a :: acts, e)
  | .file _ _ =>
    let tgt := moveTarget env.source env.dest p
    if env.readFails p ∧ ¬env.ignore then ([], some (.readErr p))
    else if env.writeFails tgt then
      if env.ignore then ([], none) else ([], some (.writeErr tgt))
    else ([.copyFile p tgt 0o644], none)
  | .symlink _ => ([], none)
def copyWalkList (env : CopyEnv) (p : Str) :
    List FSNode → List FsAct × Option WErr
  | [] => ([], none)
  | c :: cs =>
    let (r, e) := copyWalk env (childPath p c) c
    match e with
    | some e1 => (r, some e1)
    | none =>
      let (r2, e2) := copyWalkList env p cs
      (r ++ r2, e2)
end

def Copy (env : CopyEnv) (t : FSNode) : List FsAct × Option WErr :=
  copyWalk env env.source t

/-- Observable writes of a Zip call.  `removeFile` is expressible so
that the absence of any cleanup of the archive is a statement about
the produced events, but Zip never emits it. -/
inductive ZEv where
  | createArchive (path : Str)
  | addEntry (name : Str)
  | removeFile (path : Str)
deriving DecidableEq

/-- Environment of a Zip call. -/
structure ZipEnv where
  cwd : Str
  src : Str
  createFails : Bool
  readFails : Str → Bool
  entryWriteFails : Str → Bool

/-- The archive-entry name Zip computes for a walked path: the source
prefix replaced once, then one leading separator (slash or backslash)
stripped. -/
def zipLocal (src p : Str) : Str :=
  let lp := replaceOnce p src []
  if goHasPfx lp [sep] then replaceOnce lp [sep] []
  else if goHasPfx lp ['\\'] then replaceOnce lp ['\\'] []
  else lp

mutual
/-- fsutil Zip walk: every non-directory non-symlink node is read and
added to the archive under its local name; a read or archive-write
failure is returned from the callback aborting the walk. -/
def zipWalk (env : ZipEnv) (p : Str) : FSNode → List ZEv × Option WErr
  | .dir _ cs => zipWalkList env p cs
  | .symlink _ => ([], none)
  | .file _ _ =>
    if env.readFails p then ([], some (.readErr p))
    else
      let lp := zipLocal env.src p
      if env.entryWriteFails lp then ([], some (.writeErr lp))
      else ([.addEntry lp], none)
def zipWalkList (env : ZipEnv) (p : Str) :
    List FSNode → List ZEv × Option WErr
  | [] => ([], none)
  | c :: cs =>
    let (r, e) := zipWalk env (childPath p c) c
    match e with
    | some e1 => (r, some e1)
    | none =>
      let (r2, e2) := zipWalkList env p cs
      (r ++ r2, e2)
end

/-- The archive path Zip creates: the explicit target if given, else
the base name of the source with its extension replaced once by
nothing plus ".zip", resolved against the working directory. -/
def zipDest (env : ZipEnv) (target : List Str) : Str :=
  let dest0 := replaceOnce (goBase env.src) (goExt env.src) [] ++ s2l ".zip"
  let dest := match target with
    | [] => dest0
    | d :: _ => d
  goAbs env.cwd dest

/-- fsutil Zip: create the archive file (that failure is returned),
then walk the source.  The source discards the error of filepath.Walk
and returns nil. -/
def Zip (env : ZipEnv) (t : FSNode) (target : List Str) :
    List ZEv × Option WErr :=
  let destA := zipDest env target
  if env.createFails then ([], some (.createErr destA))
  else (ZEv.createArchive destA :: (zipWalk env env.src t).1, none)

/-- An entry of the archive handed to Unzip. -/
structure ZipEntry where
  name : Str
  isDir : Bool
  mode : Nat
deriving DecidableEq

/-- Observable writes of an Unzip call. -/
inductive UEv where
  | mkdirDest (path : Str)
  | mkEntryDir (path : Str) (mode : Nat)
  | mkParent (path : Str) (mode : Nat)
  | writeEntryFile (path : Str) (mode : Nat)
deriving DecidableEq

/-- Errors of Unzip. -/
inductive UErr where
  | notFound (src : Str)
  | openErr
  | traversal (path : Str)
deriving DecidableEq

/-- The ZipSlip guard of Unzip: the target path must have the Cleaned
destination followed by the separator as a prefix. -/
def unzipCheck (dest name : Str) : Bool :=
  goHasPfx (goJoin2 dest name) (goClean dest ++ [sep])

/-- Unzip extractAndWriteFile: compute the target, enforce the guard
(failing with the illegal-file-path error and writing nothing for the
entry), then create the directory or the parent directories plus the
truncated file with the archive-recorded mode. -/
def unzipEntry (dest : Str) (f : ZipEntry) : List UEv × Option UErr :=
  let path := goJoin2 dest f.name
  if ¬unzipCheck dest f.name then ([], some (.traversal path))
  else if f.isDir then ([.mkEntryDir path f.mode], none)
  else ([.mkParent (goDir path) f.mode, .writeEntryFile path f.mode], none)

/-- The entry loop of Unzip: the first entry error aborts the whole
extraction and is returned; earlier entries are not cleaned up. -/
def unzipGo (dest : Str) : List ZipEntry → List UEv × Option UErr
  | [] => ([], none)
  | f :: fs =>
    let (evs, e) := unzipEntry dest f
    match e with
    | some e1 => (evs, some e1)
    | none =>
      let (evs2, e2) := unzipGo dest fs
      (evs ++ evs2, e2)

/-- fsutil Unzip: a missing source is a not-found error, a failed
archive open is returned, otherwise the destination directory is
created and the entries extracted in order. -/
def Unzip (cwd : Str) (srcExists openOk : Bool) (src dest : Str)
    (entries : List ZipEntry) : List UEv × Option UErr :=
  let s := goAbs cwd src
  if ¬srcExists then ([], some (.notFound s))
  else
    let d := goAbs cwd dest
    if ¬openOk then ([], some .openErr)
    else
      let (evs, e) := unzipGo d entries
      (UEv.mkdirDest d :: evs, e)

mutual
/-- A tree with every symlink node removed (the root is kept even if
it is a symlink). -/
def dropSymNodes : FSNode → FSNode
  | .dir n cs => .dir n (dropSymList cs)
  | .file n pm => .file n pm
  | .symlink n => .symlink n
def dropSymList : List FSNode → List FSNode
  | [] => []
  | .symlink _ :: cs => dropSymList cs
  | .file n pm :: cs => .file n pm :: dropSymList cs
  | .dir n cs2 :: cs => .dir n (dropSymList cs2) :: dropSymList cs
end

mutual
/-- The pre-order paths of the non-directory non-symlink nodes: the
nodes Zip archives. -/
def zipFilePaths (p : Str) : FSNode → List Str
  | .file _ _ => [p]
  | .symlink _ => []
  | .dir _ cs => zipFilePathsList p cs
def zipFilePathsList (p : Str) : List FSNode → List Str
  | [] => []
  | c :: cs => zipFilePaths (childPath p c) c ++ zipFilePathsList p cs
end

/-- The error the Zip callback produces on a file node, if any. -/
def zipNodeErr (env : ZipEnv) (q : Str) : Option WErr :=
  if env.readFails q then some (.readErr q)
  else if env.entryWriteFails (zipLocal env.src q) then
    some (.writeErr (zipLocal env.src q))
  else none

/-- Whether the Zip callback archives a file node without error. -/
def zipOkB (env : ZipEnv) (q : Str) : Bool := (zipNodeErr env q).isNone

/-- The first callback error along a list of file paths. -/
def zipFirstErr (env : ZipEnv) : List Str → Option WErr
  | [] => none
  | q :: qs =>
    match zipNodeErr env q with
    | some e => some e
    | none => zipFirstErr env qs

/-
Helper lemmas.
-/

theorem takeWhile_append_pos {α : Type} (f : α → Bool) (xs ys : List α)
    (h : xs.all f = true) : (xs ++ ys).takeWhile f = xs ++ ys.takeWhile f := by
  induction xs with
  | nil => simp
  | cons a as ih =>
    simp only [List.all_cons, Bool.and_eq_true] at h
    simp [List.takeWhile_cons, h.1, ih h.2]

theorem takeWhile_append_neg {α : Type} (f : α → Bool) (xs ys : List α)
    (h : xs.all f = false) : (xs ++ ys).takeWhile f = xs.takeWhile f := by
  induction xs with
  | nil => simp at h
  | cons a as ih =>
    cases hfa : f a with
    | false => simp [List.takeWhile_cons, hfa]
    | true =>
      simp only [List.all_cons, hfa, Bool.true_and] at h
      simp [List.takeWhile_cons, hfa, ih h]

mutual
/-- The recursive walk of fsutil list visits the pre-order paths and,
because the callback error is not filepath.SkipDir, aborts the whole
walk at the first path whose ignore check is non-nil: the responses
are the longest pre-order prefix of not-ignored paths, and the abort
flag records whether any visited path was ignored. -/
theorem listWalk_eq (ign : List Str) (p : Str) (t : FSNode) :
    listWalk ign p t =
      ((preorderPaths p t).takeWhile (notIgnored ign),
       !(preorderPaths p t).all (notIgnored ign)) := by
  cases t with
  | file n pm => cases h : notIgnored ign p <;> simp [listWalk, preorderPaths, h]
  | symlink n => cases h : notIgnored ign p <;> simp [listWalk, preorderPaths, h]
  | dir n cs =>
    cases h : notIgnored ign p with
    | false => simp [listWalk, preorderPaths, h]
    | true =>
      simp [listWalk, preorderPaths, h, listWalkList_eq ign p cs]
theorem listWalkList_eq (ign : List Str) (p : Str) (cs : List FSNode) :
    listWalkList ign p cs =
      ((preorderPathsList p cs).takeWhile (notIgnored ign),
       !(preorderPathsList p cs).all (notIgnored ign)) := by
  cases cs with
  | nil => simp [listWalkList, preorderPathsList]
  | cons c cs =>
    rw [listWalkList, listWalk_eq ign (childPath p c) c, listWalkList_eq ign p cs]
    cases hall : (preorderPaths (childPath p c) c).all (notIgnored ign) with
    | true =>
      have hall2 := List.all_eq_true.mp hall
      simp [preorderPathsList, takeWhile_append_pos _ _ _ hall, List.all_append, hall]
      exact hall2
    | false =>
      simp [preorderPathsList, takeWhile_append_neg _ _ _ hall, List.all_append, hall]
end

mutual
/-- Every path filepath.Walk hands the callback extends the root path
it was started with. -/
theorem preorder_pfx (p : Str) (t : FSNode) :
    ∀ q ∈ preorderPaths p t, p <+: q := by
  cases t with
  | file n pm =>
    intro q hq
    simp only [preorderPaths, List.mem_singleton] at hq
    simp [hq]
  | symlink n =>
    intro q hq
    simp only [preorderPaths, List.mem_singleton] at hq
    simp [hq]
  | dir n cs =>
    intro q hq
    simp only [preorderPaths, List.mem_cons] at hq
    rcases hq with h | h
    · simp [h]
    · exact preorderList_pfx p cs q h
theorem preorderList_pfx (p : Str) (cs : List FSNode) :
    ∀ q ∈ preorderPathsList p cs, p <+: q := by
  cases cs with
  | nil => intro q hq; simp [preorderPathsList] at hq
  | cons c cs =>
    intro q hq
    simp only [preorderPathsList, List.mem_append] at hq
    rcases hq with h | h
    · exact List.IsPrefix.trans ⟨sep :: c.nameOf, rfl⟩ (preorder_pfx (childPath p c) c q h)
    · exact preorderList_pfx p cs q h
end

/-- strings.Index finds a prefix occurrence at index zero. -/
theorem strIdx_of_pfx (s old : Str) (h : old <+: s) : strIdx s old = some 0 := by
  unfold strIdx
  rw [List.range_succ_eq_map]
  have h0 : s.take old.length = old := (List.prefix_iff_eq_take.mp h).symm
  simp [List.find?_cons, h0]

/-- strings.Replace(path, source, nothing, 1) on a path that starts
with source removes exactly that leading occurrence. -/
theorem replaceOnce_of_pfx (s old : Str) (h : old <+: s) :
    replaceOnce s old [] = s.drop old.length := by
  by_cases h0 : old = []
  · subst h0; simp [replaceOnce]
  · simp [replaceOnce, h0, strIdx_of_pfx s old h]

mutual
/-- Every action of the Move walk belongs to a visited pre-order path
and targets the Join/Replace mapping of that path. -/
theorem moveWalk_acts (env : MoveEnv) (p : Str) (t : FSNode) :
    ∀ a ∈ (moveWalk env p t).1,
      a.entry ∈ preorderPaths p t ∧
      a.target = moveTarget env.source env.dest a.entry := by
  cases t with
  | file n pm =>
    intro a ha
    simp only [moveWalk] at ha
    by_cases hrf : env.renameFails p (moveTarget env.source env.dest p) <;>
      by_cases hig : env.ignore <;>
      simp [hrf, hig, preorderPaths] at ha <;>
      simp [ha, FsAct.entry, FsAct.target, preorderPaths]
  | symlink n =>
    intro a ha
    simp [moveWalk] at ha
  | dir n cs =>
    intro a ha
    simp only [moveWalk, List.mem_cons] at ha
    rcases ha with h | h
    · simp [h, FsAct.entry, FsAct.target, preorderPaths]
    · have := moveWalkList_acts env p cs a h
      exact ⟨by simp [preorderPaths, this.1], this.2⟩
theorem moveWalkList_acts (env : MoveEnv) (p : Str) (cs : List FSNode) :
    ∀ a ∈ (moveWalkList env p cs).1,
      a.entry ∈ preorderPathsList p cs ∧
      a.target = moveTarget env.source env.dest a.entry := by
  cases cs with
  | nil => intro a ha; simp [moveWalkList] at ha
  | cons c cs =>
    intro a ha
    rw [moveWalkList] at ha
    rcases he : (moveWalk env (childPath p c) c).2 with _ | e1
    · simp only [he, List.mem_append] at ha
      rcases ha with h | h
      · have := moveWalk_acts env (childPath p c) c a h
        exact ⟨by simp [preorderPathsList, this.1], this.2⟩
      · have := moveWalkList_acts env p cs a h
        exact ⟨by simp [preorderPathsList, this.1], this.2⟩
    · simp only [he] at ha
      have := moveWalk_acts env (childPath p c) c a ha
      exact ⟨by simp [preorderPathsList, this.1], this.2⟩
end

mutual
/-- Copy analogue of moveWalk_acts. -/
theorem copyWalk_acts (env : CopyEnv) (p : Str) (t : FSNode) :
    ∀ a ∈ (copyWalk env p t).1,
      a.entry ∈ preorderPaths p t ∧
      a.target = moveTarget env.source env.dest a.entry := by
  cases t with
  | file n pm =>
    intro a ha
    simp only [copyWalk] at ha
    cases hrd : env.readFails p <;> cases hig : env.ignore <;>
      cases hwf : env.writeFails (moveTarget env.source env.dest p) <;>
      simp [hrd, hig, hwf, preorderPaths] at ha <;>
      simp [ha, FsAct.entry, FsAct.target, preorderPaths]
  | symlink n =>
    intro a ha
    simp [copyWalk] at ha
  | dir n cs =>
    intro a ha
    simp only [copyWalk, List.mem_cons] at ha
    rcases ha with h | h
    · simp [h, FsAct.entry, FsAct.target, preorderPaths]
    · have := copyWalkList_acts env p cs a h
      exact ⟨by simp [preorderPaths, this.1], this.2⟩
theorem copyWalkList_acts (env : CopyEnv) (p : Str) (cs : List FSNode) :
    ∀ a ∈ (copyWalkList env p cs).1,
      a.entry ∈ preorderPathsList p cs ∧
      a.target = moveTarget env.source env.dest a.entry := by
  cases cs with
  | nil => intro a ha; simp [copyWalkList] at ha
  | cons c cs =>
    intro a ha
    rw [copyWalkList] at ha
    rcases he : (copyWalk env (childPath p c) c).2 with _ | e1
    · simp only [he, List.mem_append] at ha
      rcases ha with h | h
      · have := copyWalk_acts env (childPath p c) c a h
        exact ⟨by simp [preorderPathsList, this.1], this.2⟩
      · have := copyWalkList_acts env p cs a h
        exact ⟨by simp [preorderPathsList, this.1], this.2⟩
    · simp only [he] at ha
      have := copyWalk_acts env (childPath p c) c a ha
      exact ⟨by simp [preorderPathsList, this.1], this.2⟩
end

mutual
theorem moveWalk_dropSym (env : MoveEnv) (p : Str) (t : FSNode) :
    moveWalk env p (dropSymNodes t) = moveWalk env p t := by
  cases t with
  | file n pm => rfl
  | symlink n => rfl
  | dir n cs => simp [dropSymNodes, moveWalk, moveWalkList_dropSym env p cs]
theorem moveWalkList_dropSym (env : MoveEnv) (p : Str) (cs : List FSNode) :
    moveWalkList env p (dropSymList cs) = moveWalkList env p cs := by
  cases cs with
  | nil => rw [dropSymList]
  | cons c cs =>
    cases c with
    | symlink n =>
      rw [dropSymList, moveWalkList_dropSym env p cs]
      simp [moveWalkList, moveWalk]
    | file n pm =>
      rw [dropSymList]
      simp [moveWalkList, moveWalkList_dropSym env p cs]
    | dir n cs2 =>
      rw [dropSymList]
      have h1 : FSNode.dir n (dropSymList cs2) = dropSymNodes (.dir n cs2) := rfl
      simp only [moveWalkList, h1, childPath]
      rw [show (dropSymNodes (.dir n cs2)).nameOf = (FSNode.dir n cs2).nameOf from rfl]
      rw [moveWalk_dropSym env (p ++ sep :: (FSNode.dir n cs2).nameOf) (.dir n cs2)]
      rw [moveWalkList_dropSym env p cs]
end

mutual
theorem copyWalk_dropSym (env : CopyEnv) (p : Str) (t : FSNode) :
    copyWalk env p (dropSymNodes t) = copyWalk env p t := by
  cases t with
  | file n pm => rfl
  | symlink n => rfl
  | dir n cs => simp [dropSymNodes, copyWalk, copyWalkList_dropSym env p cs]
theorem copyWalkList_dropSym (env : CopyEnv) (p : Str) (cs : List FSNode) :
    copyWalkList env p (dropSymList cs) = copyWalkList env p cs := by
  cases cs with
  | nil => rw [dropSymList]
  | cons c cs =>
    cases c with
    | symlink n =>
      rw [dropSymList, copyWalkList_dropSym env p cs]
      simp [copyWalkList, copyWalk]
    | file n pm =>
      rw [dropSymList]
      simp [copyWalkList, copyWalkList_dropSym env p cs]
    | dir n cs2 =>
      rw [dropSymList]
      have h1 : FSNode.dir n (dropSymList cs2) = dropSymNodes (.dir n cs2) := rfl
      simp only [copyWalkList, h1, childPath]
      rw [show (dropSymNodes (.dir n cs2)).nameOf = (FSNode.dir n cs2).nameOf from rfl]
      rw [copyWalk_dropSym env (p ++ sep :: (FSNode.dir n cs2).nameOf) (.dir n cs2)]
      rw [copyWalkList_dropSym env p cs]
end

mutual
theorem zipWalk_dropSym (env : ZipEnv) (p : Str) (t : FSNode) :
    zipWalk env p (dropSymNodes t) = zipWalk env p t := by
  cases t with
  | file n pm => rfl
  | symlink n => rfl
  | dir n cs => simp [dropSymNodes, zipWalk, zipWalkList_dropSym env p cs]
theorem zipWalkList_dropSym (env : ZipEnv) (p : Str) (cs : List FSNode) :
    zipWalkList env p (dropSymList cs) = zipWalkList env p cs := by
  cases cs with
  | nil => rw [dropSymList]
  | cons c cs =>
    cases c with
    | symlink n =>
      rw [dropSymList, zipWalkList_dropSym env p cs]
      simp [zipWalkList, zipWalk]
    | file n pm =>
      rw [dropSymList]
      simp [zipWalkList, zipWalkList_dropSym env p cs]
    | dir n cs2 =>
      rw [dropSymList]
      have h1 : FSNode.dir n (dropSymList cs2) = dropSymNodes (.dir n cs2) := rfl
      simp only [zipWalkList, h1, childPath]
      rw [show (dropSymNodes (.dir n cs2)).nameOf = (FSNode.dir n cs2).nameOf from rfl]
      rw [zipWalk_dropSym env (p ++ sep :: (FSNode.dir n cs2).nameOf) (.dir n cs2)]
      rw [zipWalkList_dropSym env p cs]
end

theorem takeWhile_of_all {α : Type} (f : α → Bool) (xs : List α)
    (h : xs.all f = true) : xs.takeWhile f = xs := by
  induction xs with
  | nil => simp
  | cons a as ih =>
    simp only [List.all_cons, Bool.and_eq_true] at h
    simp [List.takeWhile_cons, h.1, ih h.2]

theorem zipFirstErr_append (env : ZipEnv) (xs ys : List Str) :
    zipFirstErr env (xs ++ ys) =
      match zipFirstErr env xs with
      | some e => some e
      | none => zipFirstErr env ys := by
  induction xs with
  | nil => simp [zipFirstErr]
  | cons q qs ih =>
    rw [List.cons_append, zipFirstErr, zipFirstErr]
    cases zipNodeErr env q with
    | none => simpa using ih
    | some e => rfl

theorem zipFirstErr_none_iff (env : ZipEnv) (qs : List Str) :
    zipFirstErr env qs = none ↔ qs.all (zipOkB env) = true := by
  induction qs with
  | nil => simp [zipFirstErr]
  | cons q qs ih =>
    rw [zipFirstErr, List.all_cons]
    cases h : zipNodeErr env q with
    | none => simp [zipOkB, h, ih]
    | some e => simp [zipOkB, h]

mutual
/-- The Zip walk archives, in pre-order, exactly the file nodes before
the first failing one, and its callback error is the first failure. -/
theorem zipWalk_eq (env : ZipEnv) (p : Str) (t : FSNode) :
    zipWalk env p t =
      (((zipFilePaths p t).takeWhile (zipOkB env)).map
        (fun q => ZEv.addEntry (zipLocal env.src q)),
       zipFirstErr env (zipFilePaths p t)) := by
  cases t with
  | file n pm =>
    rw [zipWalk, zipFilePaths]
    cases hrd : env.readFails p with
    | true =>
      simp [zipFirstErr, zipNodeErr, hrd, List.takeWhile_cons, zipOkB]
    | false =>
      cases hwr : env.entryWriteFails (zipLocal env.src p) with
      | true => simp [zipFirstErr, zipNodeErr, hrd, hwr, List.takeWhile_cons, zipOkB]
      | false => simp [zipFirstErr, zipNodeErr, hrd, hwr, List.takeWhile_cons, zipOkB]
  | symlink n => rw [zipWalk, zipFilePaths]; simp [zipFirstErr]
  | dir n cs => rw [zipWalk, zipFilePaths]; exact zipWalkList_eq env p cs
theorem zipWalkList_eq (env : ZipEnv) (p : Str) (cs : List FSNode) :
    zipWalkList env p cs =
      (((zipFilePathsList p cs).takeWhile (zipOkB env)).map
        (fun q => ZEv.addEntry (zipLocal env.src q)),
       zipFirstErr env (zipFilePathsList p cs)) := by
  cases cs with
  | nil => rw [zipWalkList, zipFilePathsList]; simp [zipFirstErr]
  | cons c cs =>
    rw [zipWalkList, zipFilePathsList,
      zipWalk_eq env (childPath p c) c, zipWalkList_eq env p cs,
      zipFirstErr_append]
    cases hall : (zipFilePaths (childPath p c) c).all (zipOkB env) with
    | true =>
      have hnone : zipFirstErr env (zipFilePaths (childPath p c) c) = none :=
        (zipFirstErr_none_iff env _).mpr hall
      simp [hnone, takeWhile_append_pos _ _ _ hall, takeWhile_of_all _ _ hall]
    | false =>
      have hsome : zipFirstErr env (zipFilePaths (childPath p c) c) ≠ none := by
        intro hc
        rw [(zipFirstErr_none_iff env _).mp hc] at hall
        cases hall
      rcases he : zipFirstErr env (zipFilePaths (childPath p c) c) with _ | e1
      · exact absurd he hsome
      · simp [he, takeWhile_append_neg _ _ _ hall]
end

/-- Unzip entry processing succeeds exactly when the ZipSlip guard
accepts the entry name. -/
theorem unzipEntry_snd (dest : Str) (f : ZipEntry) :
    (unzipEntry dest f).2 = none ↔ unzipCheck dest f.name = true := by
  rw [unzipEntry]
  cases h : unzipCheck dest f.name with
  | false => simp [h]
  | true => cases hd : f.isDir <;> simp [h, hd]

/-- The entry loop over a block of guard-passing entries emits their
events and continues. -/
theorem unzipGo_append_ok (dest : Str) (pre rest : List ZipEntry)
    (h : ∀ g ∈ pre, unzipCheck dest g.name = true) :
    unzipGo dest (pre ++ rest) =
      ((pre.map (fun g => (unzipEntry dest g).1)).flatten ++ (unzipGo dest rest).1,
       (unzipGo dest rest).2) := by
  induction pre with
  | nil => simp
  | cons g gs ih =>
    have hg : (unzipEntry dest g).2 = none :=
      (unzipEntry_snd dest g).mpr (h g (by simp))
    rcases hue : unzipEntry dest g with ⟨evs, e⟩
    rw [hue] at hg
    simp only at hg
    subst hg
    rw [List.cons_append, unzipGo, hue, ih (fun x hx => h x (by simp [hx]))]
    simp [hue]

/-- Every event of the entry loop belongs to an entry accepted by the
ZipSlip guard. -/
theorem unzipGo_events (dest : Str) (entries : List ZipEntry) :
    ∀ ev ∈ (unzipGo dest entries).1,
      ∃ f ∈ entries, unzipCheck dest f.name = true ∧
        ev ∈ (unzipEntry dest f).1 := by
  induction entries with
  | nil => intro ev h; simp [unzipGo] at h
  | cons f fs ih =>
    intro ev hev
    rcases hue : unzipEntry dest f with ⟨evs, e⟩
    rw [unzipGo, hue] at hev
    cases e with
    | none =>
      simp only [List.mem_append] at hev
      have he : (unzipEntry dest f).2 = none := by rw [hue]
      rcases hev with h | h
      · refine ⟨f, by simp, (unzipEntry_snd dest f).mp he, ?_⟩
        rw [hue]
        exact h
      · rcases ih ev h with ⟨g, hg, hc, hm⟩
        exact ⟨g, by simp [hg], hc, hm⟩
    | some e1 =>
      simp only at hev
      have hchk : unzipCheck dest f.name = false := by
        cases hc : unzipCheck dest f.name with
        | false => rfl
        | true =>
          have := (unzipEntry_snd dest f).mpr hc
          rw [hue] at this
          simp at this
      rw [unzipEntry, hchk] at hue
      simp at hue
      rw [hue.1] at hev
      simp at hev

mutual
/-- Every copyFile action the Copy walk emits carries permission 0644. -/
theorem copyWalk_perm (env : CopyEnv) (p : Str) (t : FSNode) :
    ∀ a ∈ (copyWalk env p t).1, ∀ e tg pm, a = FsAct.copyFile e tg pm → pm = 0o644 := by
  cases t with
  | file n pm0 =>
    intro a ha e tg pm heq
    simp only [copyWalk] at ha
    cases hrd : env.readFails p <;> cases hig : env.ignore <;>
      cases hwf : env.writeFails (moveTarget env.source env.dest p) <;>
      simp [hrd, hig, hwf] at ha <;> simp [ha] at heq <;> omega
  | symlink n =>
    intro a ha
    simp [copyWalk] at ha
  | dir n cs =>
    intro a ha e tg pm heq
    simp only [copyWalk, List.mem_cons] at ha
    rcases ha with h | h
    · rw [h] at heq; cases heq
    · exact copyWalkList_perm env p cs a h e tg pm heq
theorem copyWalkList_perm (env : CopyEnv) (p : Str) (cs : List FSNode) :
    ∀ a ∈ (copyWalkList env p cs).1, ∀ e tg pm, a = FsAct.copyFile e tg pm → pm = 0o644 := by
  cases cs with
  | nil => intro a ha; simp [copyWalkList] at ha
  | cons c cs =>
    intro a ha
    rw [copyWalkList] at ha
    rcases he : (copyWalk env (childPath p c) c).2 with _ | e1
    · simp only [he, List.mem_append] at ha
      rcases ha with h | h
      · exact copyWalk_perm env (childPath p c) c a h
      · exact copyWalkList_perm env p cs a h
    · simp only [he] at ha
      exact copyWalk_perm env (childPath p c) c a ha
end

/-
The claims.
-/

/-- Unzip with an existing source and a readable archive creates the
destination directory and runs the entry loop. -/
theorem Unzip_ok (cwd src dest : Str) (entries : List ZipEntry) :
    Unzip cwd true true src dest entries =
      (UEv.mkdirDest (goAbs cwd dest) :: (unzipGo (goAbs cwd dest) entries).1,
       (unzipGo (goAbs cwd dest) entries).2) := by
  rcases h : unzipGo (goAbs cwd dest) entries with ⟨evs, e⟩
  rw [Unzip]
  simp [h]

/-- C1: Unzip never writes a file or directory outside the destination
root.  Every event it emits other than the creation of the destination
directory itself belongs to an archive entry accepted by the ZipSlip
guard (target path inside the Cleaned destination root followed by the
separator), and the first entry whose target path fails that guard
makes the whole extraction return the illegal-file-path error with
nothing written for that entry or any later one. -/
theorem unzip_no_escape :
    (∀ (cwd src dest : Str) (entries : List ZipEntry),
      ∀ ev ∈ (Unzip cwd true true src dest entries).1,
        ev = UEv.mkdirDest (goAbs cwd dest) ∨
        ∃ f ∈ entries, unzipCheck (goAbs cwd dest) f.name = true ∧
          ev ∈ (unzipEntry (goAbs cwd dest) f).1) ∧
    (∀ (cwd src dest : Str) (pre post : List ZipEntry) (f : ZipEntry),
      (∀ g ∈ pre, unzipCheck (goAbs cwd dest) g.name = true) →
      unzipCheck (goAbs cwd dest) f.name = false →
      Unzip cwd true true src dest (pre ++ f :: post) =
        (UEv.mkdirDest (goAbs cwd dest) ::
          (pre.map (fun g => (unzipEntry (goAbs cwd dest) g).1)).flatten,
         some (.traversal (goJoin2 (goAbs cwd dest) f.name)))) := by
  constructor
  · intro cwd src dest entries ev hev
    rw [Unzip_ok] at hev
    rcases List.mem_cons.mp hev with h | h
    · exact Or.inl h
    · exact Or.inr (unzipGo_events (goAbs cwd dest) entries ev h)
  · intro cwd src dest pre post f hpre hf
    have hgo := unzipGo_append_ok (goAbs cwd dest) pre (f :: post) hpre
    have hfe : unzipEntry (goAbs cwd dest) f =
        ([], some (.traversal (goJoin2 (goAbs cwd dest) f.name))) := by
      rw [unzipEntry, hf]
      simp
    have hstep : unzipGo (goAbs cwd dest) (f :: post) =
        ([], some (.traversal (goJoin2 (goAbs cwd dest) f.name))) := by
      rw [unzipGo, hfe]
    rw [Unzip_ok, hgo, hstep]
    simp

/-- Witness for unzip_no_escape: the entry ../escape.txt in an archive
extracted to /dst resolves to /escape.txt, fails the guard, and the
extraction fails having only created the destination directory. -/
theorem unzip_no_escape_witness :
    Unzip (s2l "/") true true (s2l "/a.zip") (s2l "/dst")
        [⟨s2l "../escape.txt", false, 420⟩] =
      ([UEv.mkdirDest (s2l "/dst")], some (.traversal (s2l "/escape.txt"))) := by
  have h := unzip_no_escape.2 (s2l "/") (s2l "/a.zip") (s2l "/dst") [] []
    ⟨s2l "../escape.txt", false, 420⟩ (by simp) (by decide)
  exact h.trans (by decide)

/-- C2 counterexample: a Zip whose only file fails to read produces a
read error inside the walk, yet Zip returns nil: the failure is not
returned to the caller, refuting the claim that it is. -/
theorem zip_error_not_returned :
    Zip ⟨s2l "/", s2l "/s", false, fun p => p = s2l "/s/f", fun _ => false⟩
        (.dir (s2l "s") [.file (s2l "f") 420]) [s2l "/out.zip"] =
      ([ZEv.createArchive (s2l "/out.zip")], none) ∧
    (zipWalk ⟨s2l "/", s2l "/s", false, fun p => p = s2l "/s/f", fun _ => false⟩
        (s2l "/s") (.dir (s2l "s") [.file (s2l "f") 420])).2 =
      some (.readErr (s2l "/s/f")) := by
  constructor <;> decide

/-- Zip with a successful archive-file creation emits the creation
event followed by the walk events and returns nil. -/
theorem Zip_create_ok (cwd src : Str) (rF wF : Str → Bool) (t : FSNode)
    (tgt : List Str) :
    Zip ⟨cwd, src, false, rF, wF⟩ t tgt =
      (ZEv.createArchive (zipDest ⟨cwd, src, false, rF, wF⟩ tgt) ::
        (zipWalk ⟨cwd, src, false, rF, wF⟩ src t).1, none) := by
  rw [Zip]
  simp

/-- C2 amended: when creating the archive file succeeds Zip always
returns nil; a read or entry-write failure aborts the walk, so the
archive receives exactly the file entries preceding the first failing
file; the created archive file is never removed; only a failure to
create the archive file itself is returned. -/
theorem zip_failure_semantics :
    ∀ (cwd src : Str) (rF wF : Str → Bool) (t : FSNode) (tgt : List Str),
      (Zip ⟨cwd, src, false, rF, wF⟩ t tgt).2 = none ∧
      (Zip ⟨cwd, src, false, rF, wF⟩ t tgt).1 =
        ZEv.createArchive (zipDest ⟨cwd, src, false, rF, wF⟩ tgt) ::
          ((zipFilePaths src t).takeWhile (zipOkB ⟨cwd, src, false, rF, wF⟩)).map
            (fun q => ZEv.addEntry (zipLocal src q)) ∧
      ((Zip ⟨cwd, src, false, rF, wF⟩ t tgt).1.all fun ev =>
        match ev with
        | ZEv.removeFile _ => false
        | _ => true) = true ∧
      Zip ⟨cwd, src, true, rF, wF⟩ t tgt =
        ([], some (.createErr (zipDest ⟨cwd, src, true, rF, wF⟩ tgt))) := by
  intro cwd src rF wF t tgt
  refine ⟨?_, ?_, ?_, ?_⟩
  · rw [Zip_create_ok]
  · rw [Zip_create_ok, zipWalk_eq]
  · rw [Zip_create_ok, List.all_eq_true]
    intro ev hev
    rcases List.mem_cons.mp hev with h | h
    · rw [h]
    · rw [zipWalk_eq] at h
      rcases List.mem_map.mp h with ⟨q, hq1, hq⟩
      rw [← hq]
  · rw [Zip]
    simp

/-- C3 counterexample: with ignore pattern /r/a the sibling file /r/z
matches no pattern yet is missing from the recursive listing: the walk
aborts at the ignored node instead of continuing with siblings. -/
theorem list_prune_aborts_walk :
    ListNames (s2l "/") (s2l "/r")
        (some (.dir (s2l "r") [.dir (s2l "a") [], .file (s2l "z") 420]))
        true true [] [s2l "/r/a"] =
      ([s2l "/r"], none) ∧
    goMatch (s2l "/r/a") (s2l "/r/z") = .ok false ∧
    ((ListNames (s2l "/") (s2l "/r")
        (some (.dir (s2l "r") [.dir (s2l "a") [], .file (s2l "z") 420]))
        true true [] [s2l "/r/a"]).1.contains (s2l "/r/z")) = false := by
  refine ⟨by decide, by decide, by decide⟩

/-- C3 amended: in a recursive listing, a node whose ignore check does
not succeed makes the callback return an error that aborts the entire
underlying walk (the error itself is then discarded), so the result is
exactly the longest depth-first pre-order prefix of paths whose ignore
check succeeds: the ignored node, its subtree, and every path after it
in walk order are omitted, with no error reported. -/
theorem list_prune_amended :
    ∀ (cwd dir : Str) (t : FSNode) (ign : List Str) (gOk : Bool) (gPaths : List Str),
      ListNames cwd dir (some t) true gOk gPaths ign =
        ((preorderPaths (goAbs cwd dir) t).takeWhile (notIgnored ign), none) := by
  intro cwd dir t ign gOk gPaths
  rw [ListNames, list, listWalk_eq]
  simp

/-- C4: the ignore matcher reports a path ignored iff some supplied
glob pattern matches it (whenever every pattern evaluates without a
Match error on that path); an empty pattern set never ignores; and a
malformed pattern reached before any matching one fails the whole call
with the Match error instead of swallowing it.  Patterns are tested in
the supplied order with the first match short-circuiting. -/
theorem ignore_matcher_spec (path : Str) :
    isIgnoredPath path [] = .ok ∧
    (∀ pats : List Str, (∀ g ∈ pats, goMatch g path ≠ .error ()) →
      (isIgnoredPath path pats = .ignoredErr ↔
        ∃ g ∈ pats, goMatch g path = .ok true)) ∧
    (∀ (pre : List Str) (g : Str) (post : List Str),
      (∀ q ∈ pre, goMatch q path = .ok false) → goMatch g path = .error () →
      isIgnoredPath path (pre ++ g :: post) = .badPattern) := by
  refine ⟨rfl, ?_, ?_⟩
  · intro pats
    induction pats with
    | nil =>
      intro _
      simp [isIgnoredPath, isIgnoredLoop]
    | cons g gs ih =>
      intro h
      rcases hm : goMatch g path with e | b
      · exact absurd hm (h g (by simp))
      · cases b with
        | true =>
          constructor
          · intro _
            exact ⟨g, by simp, hm⟩
          · intro _
            rw [isIgnoredPath, isIgnoredLoop, hm]
        | false =>
          have ihh := ih (fun q hq => h q (by simp [hq]))
          rw [isIgnoredPath, isIgnoredLoop, hm]
          rw [isIgnoredPath] at ihh
          rw [ihh]
          constructor
          · rintro ⟨q, hq, hqm⟩
            exact ⟨q, by simp [hq], hqm⟩
          · rintro ⟨q, hq, hqm⟩
            rcases List.mem_cons.mp hq with rfl | hq2
            · rw [hm] at hqm
              cases hqm
            · exact ⟨q, hq2, hqm⟩
  · intro pre g post hpre hg
    induction pre with
    | nil =>
      rw [List.nil_append, isIgnoredPath, isIgnoredLoop, hg]
    | cons q qs ih =>
      have hq : goMatch q path = .ok false := hpre q (by simp)
      rw [List.cons_append, isIgnoredPath, isIgnoredLoop, hq]
      exact ih (fun x hx => hpre x (by simp [hx]))

/-- Witness for ignore_matcher_spec: the path /a/b is ignored by the
matching pattern /a/* and the malformed pattern [ fails the call. -/
theorem ignore_matcher_spec_witness :
    isIgnoredPath (s2l "/a/b") [s2l "/a/*"] = .ignoredErr ∧
    isIgnoredPath (s2l "/a/b") [s2l "["] = .badPattern := by
  constructor
  · exact ((ignore_matcher_spec (s2l "/a/b")).2.1 [s2l "/a/*"]
      (by decide)).mpr ⟨s2l "/a/*", by decide, by decide⟩
  · exact (ignore_matcher_spec (s2l "/a/b")).2.2 [] (s2l "[") [] (by simp) (by decide)

/-- C5 counterexample: with the tree root/a/b/file.txt, the pattern
/root/**/file.txt does not match /root/a/b/file.txt under Go glob
syntax (a star never crosses a separator), so the recursive listing
includes file.txt instead of excluding it. -/
theorem glob_doublestar_no_exclusion :
    ListNames (s2l "/") (s2l "/root")
        (some (.dir (s2l "root")
          [.dir (s2l "a") [.dir (s2l "b") [.file (s2l "file.txt") 420]]]))
        true true [] [s2l "/root/**/file.txt"] =
      ([s2l "/root", s2l "/root/a", s2l "/root/a/b", s2l "/root/a/b/file.txt"],
       none) ∧
    ((ListNames (s2l "/") (s2l "/root")
        (some (.dir (s2l "root")
          [.dir (s2l "a") [.dir (s2l "b") [.file (s2l "file.txt") 420]]]))
        true true [] [s2l "/root/**/file.txt"]).1.contains
      (s2l "/root/a/b/file.txt")) = true ∧
    goMatch (s2l "/root/**/file.txt") (s2l "/root/a/b/file.txt") = .ok false := by
  refine ⟨by decide, by decide, by decide⟩

/-- C5 amended: ** in Go filepath.Match is just two stars and does not
cross path separators.  The recursive listing of root with pattern
/root/**/file.txt therefore returns root, root/a, root/a/b and
root/a/b/file.txt when the file is two levels deep (the pattern
matches nothing), while for a file one level deep (root/a/file.txt)
the pattern does match, the walk stops there, and the result is root
and root/a. -/
theorem glob_doublestar_single_level :
    ListNames (s2l "/") (s2l "/root")
        (some (.dir (s2l "root")
          [.dir (s2l "a") [.dir (s2l "b") [.file (s2l "file.txt") 420]]]))
        true true [] [s2l "/root/**/file.txt"] =
      ([s2l "/root", s2l "/root/a", s2l "/root/a/b", s2l "/root/a/b/file.txt"],
       none) ∧
    ListNames (s2l "/") (s2l "/root")
        (some (.dir (s2l "root") [.dir (s2l "a") [.file (s2l "file.txt") 420]]))
        true true [] [s2l "/root/**/file.txt"] =
      ([s2l "/root", s2l "/root/a"], none) := by
  refine ⟨by decide, by decide⟩

/-- C6: a recursive listing of a non-existent path returns an empty
sequence and nil (the walk hands the callback the stat error, the
callback returns it, and list discards the walk error), and a shallow
listing whose glob expansion finds nothing is likewise empty with nil
error. -/
theorem list_nonexistent (cwd dir : Str) (ign : List Str) (tree? : Option FSNode)
    (gOk : Bool) (gPaths : List Str) :
    ListNames cwd dir none true gOk gPaths ign = ([], none) ∧
    ListNames cwd dir tree? false true [] ign = ([], none) := by
  constructor
  · simp [ListNames, list]
  · simp [ListNames, list, shallowLoop]

/-- C7: every destination path written by Move or Copy is the
destination root joined with the visited entry path after stripping
the source-root prefix exactly once from its front (the entry paths
the walk produces always start with the source root, so the single
strings.Replace removes precisely that leading prefix). -/
theorem move_copy_path_mapping (envM : MoveEnv) (envC : CopyEnv) (t u : FSNode) :
    (∀ a ∈ (Move envM t).1,
      envM.source <+: a.entry ∧
      a.target = goJoin2 envM.dest (a.entry.drop envM.source.length)) ∧
    (∀ a ∈ (Copy envC u).1,
      envC.source <+: a.entry ∧
      a.target = goJoin2 envC.dest (a.entry.drop envC.source.length)) := by
  constructor
  · intro a ha
    have h := moveWalk_acts envM envM.source t a ha
    have hp := preorder_pfx envM.source t a.entry h.1
    refine ⟨hp, ?_⟩
    rw [h.2, moveTarget, replaceOnce_of_pfx _ _ hp]
  · intro a ha
    have h := copyWalk_acts envC envC.source u a ha
    have hp := preorder_pfx envC.source u a.entry h.1
    refine ⟨hp, ?_⟩
    rw [h.2, moveTarget, replaceOnce_of_pfx _ _ hp]

/-- Witness for move_copy_path_mapping: moving the file /s to /d
renames it to /d, the destination joined with the stripped entry. -/
theorem move_copy_path_mapping_witness :
    (s2l "/s") <+: (s2l "/s") ∧
    s2l "/d" = goJoin2 (s2l "/d") ((s2l "/s").drop (s2l "/s").length) := by
  have h := (move_copy_path_mapping
      ⟨s2l "/", s2l "/s", s2l "/d", fun _ => false, fun _ _ => false, false⟩
      ⟨s2l "/", s2l "/s", s2l "/d", fun _ => false, fun _ => false, fun _ => false, false⟩
      (.file (s2l "s") 420) (.file (s2l "s") 420)).1
    (FsAct.rename (s2l "/s") (s2l "/d")) (by decide)
  exact ⟨h.1, h.2⟩

/-- C8: evaluation of Move at the failing input.  Moving /s, which
contains the directory sub.old, to a fresh /d makes the walk call
Touch("/d/sub.old"); because the path has the extension .old, Touch
creates an empty regular file there instead of a directory, so the
mapped destination path of a dotted directory is not made to exist as
a directory. -/
theorem move_dotted_directory_creates_file :
    Move ⟨s2l "/", s2l "/s", s2l "/d", fun _ => false, fun _ _ => false, false⟩
        (.dir (s2l "s") [.dir (s2l "sub.old") []]) =
      ([FsAct.touch (s2l "/s") (s2l "/d") [TEv.mkdirAll (s2l "/d")],
        FsAct.touch (s2l "/s/sub.old") (s2l "/d/sub.old")
          [TEv.mkdirAll (s2l "/d"), TEv.createFile (s2l "/d/sub.old")]],
       none) ∧
    goExt (s2l "/d/sub.old") = s2l ".old" ∧
    TouchEvents (s2l "/") false false false (s2l "/d/sub.old") =
      [TEv.mkdirAll (s2l "/d"), TEv.createFile (s2l "/d/sub.old")] := by
  refine ⟨by decide, by decide, by decide⟩

/-- C9: symlink nodes are skipped entirely by Move, Copy and Zip:
removing every symlink node from the source tree changes neither the
produced actions and events nor the returned error, and running the
operations on a symlink node itself performs nothing and reports no
error. -/
theorem symlinks_skipped (envM : MoveEnv) (envC : CopyEnv) (envZ : ZipEnv)
    (t : FSNode) (tgt : List Str) (nm : Str) :
    Move envM (dropSymNodes t) = Move envM t ∧
    Copy envC (dropSymNodes t) = Copy envC t ∧
    Zip envZ (dropSymNodes t) tgt = Zip envZ t tgt ∧
    Move envM (.symlink nm) = ([], none) ∧
    Copy envC (.symlink nm) = ([], none) ∧
    zipWalk envZ envZ.src (.symlink nm) = ([], none) := by
  refine ⟨?_, ?_, ?_, ?_, ?_, ?_⟩
  · exact moveWalk_dropSym envM envM.source t
  · exact copyWalk_dropSym envC envC.source t
  · rw [Zip, Zip, zipWalk_dropSym]
  · rw [Move, moveWalk]
  · rw [Copy, copyWalk]
  · rw [zipWalk]

/-- C10: every file Copy writes at a destination path is written with
permission mode 0644, whatever permission bits the source file
carries. -/
theorem copy_writes_0644 (env : CopyEnv) (t : FSNode) (a : FsAct)
    (e tg : Str) (pm : Nat) (ha : a ∈ (Copy env t).1)
    (heq : a = FsAct.copyFile e tg pm) : pm = 0o644 :=
  copyWalk_perm env env.source t a ha e tg pm heq

/-- Witness for copy_writes_0644: copying the file /s (source
permission 999) to /d emits a write with permission 0644. -/
theorem copy_writes_0644_witness :
    (Copy ⟨s2l "/", s2l "/s", s2l "/d", fun _ => false, fun _ => false,
        fun _ => false, false⟩ (.file (s2l "s") 999)).1 =
      [FsAct.copyFile (s2l "/s") (s2l "/d") 0o644] ∧
    (0o644 : Nat) = 0o644 := by
  refine ⟨by decide, ?_⟩
  exact copy_writes_0644
    ⟨s2l "/", s2l "/s", s2l "/d", fun _ => false, fun _ => false,
      fun _ => false, false⟩
    (.file (s2l "s") 999) (FsAct.copyFile (s2l "/s") (s2l "/d") 0o644)
    (s2l "/s") (s2l "/d") 0o644 (by decide) rfl
